import Mathlib

/-!
Verification of the core components of the DETERMINATION Discord bot
(`DETERMINATION.py`): the `RateLimiter` sliding-window rate limiter, the
`ask_gemini` error-mapping helper, and the `diceroll` input validation.

Timestamps (`time.time()` values in the code) are modelled as elements of an
arbitrary linear ordered ring `α`; concrete witnesses instantiate `α := ℤ`.
Each deque of timestamps becomes a `List α` (front of the deque = head of the
list), and the in-place mutation of the limiter by `check` / `record_request`
becomes explicit state passing.
-/

set_option autoImplicit false

namespace Determination

variable {α : Type} [LinearOrderedCommRing α]

/-- State of the `RateLimiter` class (DETERMINATION.py, lines 45–51):
the two configured limits and the two timestamp deques
(`requests_minute`, `requests_day`), oldest timestamp first. -/
structure RateLimiter (α : Type) where
  rpm_limit : ℕ
  daily_limit : ℕ
  requests_minute : List α
  requests_day : List α
deriving DecidableEq, Repr

namespace RateLimiter

/-- Constructor `__init__` (lines 47–51): both deques start empty. -/
def init (rpm daily : ℕ) : RateLimiter α :=
  { rpm_limit := rpm, daily_limit := daily, requests_minute := [], requests_day := [] }

/-- The purge loop
`while q and current_time - q[0] > limit: q.popleft()` (lines 58–62),
translated into structural recursion on the deque contents. -/
def purge (current_time limit : α) : List α → List α
  | [] => []
  | ts :: rest =>
    if current_time - ts > limit then purge current_time limit rest else ts :: rest

/-- The per-minute limit reply (line 66). -/
def minuteLimitMessage : String :=
  "Bot đang bận suy nghĩ! Vui lòng thử lại sau một phút."

/-- The per-day limit reply (line 68). -/
def dailyLimitMessage : String :=
  "Hôm nay bot đã dùng hết năng lượng rồi. Hẹn gặp lại bạn vào ngày mai nhé!"

/-- Method `RateLimiter.check` (lines 53–70).  Purges both windows at the current
time, then tests the two limits; returns the `(is_limited, message)` pair
together with the mutated limiter state. -/
def check (s : RateLimiter α) (current_time : α) : (Bool × String) × RateLimiter α :=
  let m := purge current_time 60 s.requests_minute
  let d := purge current_time 86400 s.requests_day
  let s' : RateLimiter α := { s with requests_minute := m, requests_day := d }
  if m.length ≥ s.rpm_limit then ((true, minuteLimitMessage), s')
  else if d.length ≥ s.daily_limit then ((true, dailyLimitMessage), s')
  else ((false, ""), s')

/-- Method `RateLimiter.record_request` (lines 72–76): reads the clock once and
appends that timestamp to both deques. -/
def record_request (s : RateLimiter α) (current_time : α) : RateLimiter α :=
  { s with requests_minute := s.requests_minute ++ [current_time],
           requests_day := s.requests_day ++ [current_time] }

/-- One `check()`-then-`record_request()` cycle per listed time, as performed
by every command handler (e.g. lines 248–252): the run stops (returns `none`)
as soon as some `check` reports limited; otherwise the request is recorded. -/
def acceptedRun : List α → RateLimiter α → Option (RateLimiter α)
  | [], s => some s
  | t :: ts, s =>
    if ((check s t).1).1 then none
    else acceptedRun ts (record_request ((check s t).2) t)

/-- Fallible front access on a deque, erring like `deque[0]` on an empty
deque would. -/
def headE : List α → Except String α
  | [] => Except.error "IndexError: deque index out of range"
  | ts :: _ => Except.ok ts

/-- The purge loop again, but with the `q[0]` access made explicitly
fallible: each iteration first tests the `q` part of the guard
`while q and current_time - q[0] > limit`, and only then reads `q[0]`. -/
def purgeE (current_time limit : α) : List α → Except String (List α)
  | [] => Except.ok []
  | ts :: rest =>
    match headE (ts :: rest) with
    | Except.error e => Except.error e
    | Except.ok front =>
      if current_time - front > limit then purgeE current_time limit rest
      else Except.ok (ts :: rest)

/-- Variant of `check` with every deque front access routed through `purgeE`, so that a
hypothetical out-of-range access would surface as an `Except.error`. -/
def checkE (s : RateLimiter α) (current_time : α) :
    Except String ((Bool × String) × RateLimiter α) :=
  match purgeE current_time 60 s.requests_minute with
  | Except.error e => Except.error e
  | Except.ok m =>
    match purgeE current_time 86400 s.requests_day with
    | Except.error e => Except.error e
    | Except.ok d =>
      let s' : RateLimiter α := { s with requests_minute := m, requests_day := d }
      Except.ok
        (if m.length ≥ s.rpm_limit then ((true, minuteLimitMessage), s')
         else if d.length ≥ s.daily_limit then ((true, dailyLimitMessage), s')
         else ((false, ""), s'))

/-- Follows the wording of the specification for `check()` (spec §4.1): first
purge "all timestamps older than 60s from the minute window and all older
than 86400s from the day window" (removal of a stale front, repeatedly,
i.e. `dropWhile`), then test minute-window length against `rpmLimit`,
then day-window length against `dailyLimit`, in that precedence order. -/
def checkSpec (s : RateLimiter α) (now : α) : (Bool × String) × RateLimiter α :=
  let m := s.requests_minute.dropWhile fun ts => decide (now - ts > 60)
  let d := s.requests_day.dropWhile fun ts => decide (now - ts > 86400)
  let s' : RateLimiter α := { s with requests_minute := m, requests_day := d }
  if m.length ≥ s.rpm_limit then ((true, minuteLimitMessage), s')
  else if d.length ≥ s.daily_limit then ((true, dailyLimitMessage), s')
  else ((false, ""), s')

end RateLimiter

/-- One operation on the shared limiter instance, tagged with the
`time.time()` value observed during that call. -/
inductive LimiterOp (α : Type)
  | checkOp (t : α)
  | recordOp (t : α)
deriving DecidableEq, Repr

/-- The clock value observed by an operation. -/
def LimiterOp.time : LimiterOp α → α
  | .checkOp t => t
  | .recordOp t => t

/-- Effect of one operation on the limiter state (the result pair of a
`check` is discarded; only the state evolution matters here). -/
def applyOp (s : RateLimiter α) : LimiterOp α → RateLimiter α
  | .checkOp t => (RateLimiter.check s t).2
  | .recordOp t => RateLimiter.record_request s t

/-- Run a sequence of limiter operations from a starting state. -/
def runOps (ops : List (LimiterOp α)) (s : RateLimiter α) : RateLimiter α :=
  ops.foldl applyOp s

/-- Outcome of one `gemini_model.generate_content` call as observed by
`ask_gemini` (lines 87–97): either a raised exception (its text), or a
response carrying a candidate list and a `text` payload. -/
structure GeminiResponse where
  candidates : List String
  text : String
deriving DecidableEq, Repr

/-- The fixed reply for a response with no candidates (line 93). -/
def blockedMessage : String :=
  "Rất tiếc, tôi không thể tạo phản hồi. Có thể nội dung đã bị chặn vì lý do an toàn."

/-- The literal part of the f-string apology for a raised exception
(line 97); the exception text `e` is appended after it. -/
def apologyIntro : String :=
  "Xin lỗi, có một lỗi nhỏ đã xảy ra khi tôi đang kết nối với vũ trụ: "

/-- Helper `ask_gemini` (lines 87–97), with the external call outcome passed in
explicitly: a raised exception is caught and mapped to the apology f-string;
a response with an empty candidate list yields `blockedMessage`; otherwise
`response.text` is returned. -/
def ask_gemini (call : Except String GeminiResponse) : String :=
  match call with
  | Except.error e => apologyIntro ++ e
  | Except.ok response =>
    if response.candidates.isEmpty then blockedMessage else response.text

/-- Conversion `int()` applied to a digit run, as produced by `match.group(_)`. -/
def digitsToNat (ds : List Char) : ℕ :=
  ds.foldl (fun a c => 10 * a + (c.toNat - 48)) 0

/-- Pattern `(\d+)d(\d+)` matched by `re.fullmatch` plus `int` conversion of
the two groups (lines 234 and 241).  Greedy matching of `\d+` followed by the
non-digit literal `d` (resp. the end of the string) never backtracks, so it
is the maximal digit run computed by `span isDigit`. -/
def parseDiceChars (cs : List Char) : Option (ℕ × ℕ) :=
  let p := cs.span Char.isDigit
  if p.1 = [] then none
  else
    match p.2 with
    | [] => none
    | sep :: afterD =>
      if sep = 'd' then
        let q := afterD.span Char.isDigit
        if q.1 ≠ [] ∧ q.2 = [] then some (digitsToNat p.1, digitsToNat q.1) else none
      else none

/-- The pattern match of `diceroll` on `dice.lower()` (line 234). -/
def dicerollParse (dice : String) : Option (ℕ × ℕ) :=
  parseDiceChars (dice.toList.map Char.toLower)

/-- The format-validation reply (lines 236–238). -/
def formatErrorMessage : String :=
  "Định dạng không đúng! Hãy dùng `NdN` (ví dụ: `2d6`, `1d20`)."

/-- The range-validation reply (lines 242–245). -/
def rangeErrorMessage : String :=
  "Số lượng xúc xắc (1-100) hoặc số mặt (2-1000) không hợp lệ."

/-- How one `/diceroll` invocation ends, as far as validation and the rate
limiter are concerned (the actual rolling and Gemini call follow only in the
`accepted` case). -/
inductive DicerollOutcome
  | rejected (msg : String)
  | limited (msg : String)
  | accepted (numDice numSides : ℕ)
deriving DecidableEq, Repr

/-- Control flow of the `diceroll` handler (lines 231–256) up to the point
where the dice are rolled: pattern validation, then range validation
(both before any limiter interaction), then `limiter.check()`, then
`limiter.record_request()`.  Returns the outcome and the limiter state
after the invocation. -/
def diceroll (s : RateLimiter α) (t : α) (dice : String) :
    DicerollOutcome × RateLimiter α :=
  match dicerollParse dice with
  | none => (DicerollOutcome.rejected formatErrorMessage, s)
  | some (numDice, numSides) =>
    if 1 ≤ numDice ∧ numDice ≤ 100 ∧ 2 ≤ numSides ∧ numSides ≤ 1000 then
      let c := RateLimiter.check s t
      if (c.1).1 then (DicerollOutcome.limited (c.1).2, c.2)
      else (DicerollOutcome.accepted numDice numSides, RateLimiter.record_request c.2 t)
    else (DicerollOutcome.rejected rangeErrorMessage, s)

end Determination

namespace Determination

namespace RateLimiter

variable {α : Type} [LinearOrderedCommRing α]

theorem purge_eq_dropWhile (now limit : α) (l : List α) :
    purge now limit l = l.dropWhile fun ts => decide (now - ts > limit) := by
  induction l with
  | nil => rfl
  | cons h t ih =>
    by_cases hc : now - h > limit
    · simp [purge, List.dropWhile, hc, ih]
    · simp [purge, List.dropWhile, hc]

theorem purge_suffix (now limit : α) (l : List α) : purge now limit l <:+ l := by
  induction l with
  | nil => exact List.suffix_refl _
  | cons a rest ih =>
    by_cases hc : now - a > limit
    · have h1 : purge now limit (a :: rest) = purge now limit rest := by
        simp [purge, hc]
      rw [h1]
      exact ih.trans (List.suffix_cons a rest)
    · simp [purge, hc]

theorem mem_of_mem_purge {now limit : α} {l : List α} {x : α}
    (h : x ∈ purge now limit l) : x ∈ l :=
  (purge_suffix now limit l).sublist.subset h

theorem purge_purge {u t : α} (limit : α) (h : u ≤ t) (l : List α) :
    purge t limit (purge u limit l) = purge t limit l := by
  induction l with
  | nil => rfl
  | cons a rest ih =>
    by_cases hc : u - a > limit
    · have hc2 : t - a > limit := lt_of_lt_of_le hc (sub_le_sub_right h a)
      have h1 : purge u limit (a :: rest) = purge u limit rest := by simp [purge, hc]
      have h2 : purge t limit (a :: rest) = purge t limit rest := by simp [purge, hc2]
      rw [h1, h2, ih]
    · have h1 : purge u limit (a :: rest) = a :: rest := by simp [purge, hc]
      rw [h1]

theorem suffix_purge_of_fresh {now limit : α} {suf l : List α}
    (hsuf : suf <:+ l) (hfresh : ∀ x ∈ suf, now - x ≤ limit) :
    suf <:+ purge now limit l := by
  obtain ⟨pre, rfl⟩ := hsuf
  induction pre with
  | nil =>
    cases suf with
    | nil => exact List.nil_suffix
    | cons a rest =>
      have hna : ¬ now - a > limit := not_lt.mpr (hfresh a (List.mem_cons_self a rest))
      simp [purge, hna]
  | cons b pre ih =>
    by_cases hc : now - b > limit
    · have h1 : purge now limit ((b :: pre) ++ suf) = purge now limit (pre ++ suf) := by
        simp [purge, hc]
      rw [h1]
      exact ih
    · have h1 : purge now limit ((b :: pre) ++ suf) = (b :: pre) ++ suf := by
        simp [purge, hc]
      rw [h1]
      exact ⟨b :: pre, rfl⟩

theorem purge_mono_limit {now limA limB : α} (hlim : limA ≤ limB) (l : List α) :
    purge now limA l <:+ purge now limB l := by
  induction l with
  | nil => exact List.suffix_refl _
  | cons a rest ih =>
    by_cases hB : now - a > limB
    · have hA : now - a > limA := lt_of_le_of_lt hlim hB
      have h1 : purge now limA (a :: rest) = purge now limA rest := by simp [purge, hA]
      have h2 : purge now limB (a :: rest) = purge now limB rest := by simp [purge, hB]
      rw [h1, h2]
      exact ih
    · by_cases hA : now - a > limA
      · have h1 : purge now limA (a :: rest) = purge now limA rest := by simp [purge, hA]
        have h2 : purge now limB (a :: rest) = a :: rest := by simp [purge, hB]
        rw [h1, h2]
        exact (purge_suffix now limA rest).trans (List.suffix_cons a rest)
      · have h1 : purge now limA (a :: rest) = a :: rest := by simp [purge, hA]
        have h2 : purge now limB (a :: rest) = a :: rest := by simp [purge, hB]
        rw [h1, h2]

theorem purge_suffix_mono {now limA limB : α} (hlim : limA ≤ limB) {m d : List α}
    (h : m <:+ d) : purge now limA m <:+ purge now limB d := by
  obtain ⟨pre, rfl⟩ := h
  induction pre with
  | nil => simpa using purge_mono_limit hlim m
  | cons b pre ih =>
    by_cases hB : now - b > limB
    · have h1 : purge now limB ((b :: pre) ++ m) = purge now limB (pre ++ m) := by
        simp [purge, hB]
      rw [h1]
      exact ih
    · have h1 : purge now limB ((b :: pre) ++ m) = (b :: pre) ++ m := by
        simp [purge, hB]
      rw [h1]
      exact (purge_suffix now limA m).trans (List.suffix_append (b :: pre) m)

theorem purge_eq_filter_of_sorted {now limit : α} {l : List α}
    (hs : l.Pairwise (· ≤ ·)) :
    purge now limit l = l.filter fun x => decide (now - x ≤ limit) := by
  induction l with
  | nil => rfl
  | cons a rest ih =>
    rw [List.pairwise_cons] at hs
    by_cases hc : now - a > limit
    · have h1 : purge now limit (a :: rest) = purge now limit rest := by simp [purge, hc]
      have hpa : ¬ ((decide (now - a ≤ limit) : Bool) = true) := by
        simpa using not_le.mpr hc
      rw [h1, ih hs.2, List.filter_cons, if_neg hpa]
    · have h1 : purge now limit (a :: rest) = a :: rest := by simp [purge, hc]
      have hrest : rest.filter (fun x => decide (now - x ≤ limit)) = rest := by
        rw [List.filter_eq_self]
        intro x hx
        have hax : a ≤ x := hs.1 x hx
        have hsub : now - x ≤ now - a := sub_le_sub_left hax now
        simpa using hsub.trans (not_lt.mp hc)
      have hpa : ((decide (now - a ≤ limit) : Bool) = true) := by
        simpa using not_lt.mp hc
      rw [h1, List.filter_cons, if_pos hpa, hrest]

theorem check_snd (s : RateLimiter α) (t : α) :
    (check s t).2 = { s with requests_minute := purge t 60 s.requests_minute,
                             requests_day := purge t 86400 s.requests_day } := by
  by_cases h1 : (purge t 60 s.requests_minute).length ≥ s.rpm_limit
  · simp [check, h1]
  · by_cases h2 : (purge t 86400 s.requests_day).length ≥ s.daily_limit
    · simp [check, h1, h2]
    · simp [check, h1, h2]

theorem check_fst (s : RateLimiter α) (t : α) :
    (check s t).1 =
      if (purge t 60 s.requests_minute).length ≥ s.rpm_limit then (true, minuteLimitMessage)
      else if (purge t 86400 s.requests_day).length ≥ s.daily_limit then
        (true, dailyLimitMessage)
      else (false, "") := by
  by_cases h1 : (purge t 60 s.requests_minute).length ≥ s.rpm_limit
  · simp [check, h1]
  · by_cases h2 : (purge t 86400 s.requests_day).length ≥ s.daily_limit
    · simp [check, h1, h2]
    · simp [check, h1, h2]

theorem check_after_check {u t : α} (h : u ≤ t) (s : RateLimiter α) :
    check ((check s u).2) t = check s t := by
  rw [check_snd]
  unfold check
  dsimp only
  rw [purge_purge 60 h, purge_purge 86400 h]

/-- C6: `check()` is idempotent on the limiter state: with a nondecreasing
clock, any number of earlier `check` calls (with no intervening
`record_request`) leaves the outcome and resulting state of a later `check`
unchanged — pruning only removes entries the later call would prune anyway. -/
theorem check_idempotent (s : RateLimiter α) (ts : List α) (t : α)
    (h : ∀ u ∈ ts, u ≤ t) :
    check (ts.foldl (fun s1 u => (check s1 u).2) s) t = check s t := by
  induction ts generalizing s with
  | nil => rfl
  | cons u rest ih =>
    rw [List.foldl_cons, ih _ fun v hv => h v (List.mem_cons_of_mem u hv)]
    exact check_after_check (h u (List.mem_cons_self u rest)) s

theorem check_idempotent_witness :
    check (([1, 2] : List ℤ).foldl (fun s1 u => (check s1 u).2) (init 2 10)) 5 =
      check (init 2 10 : RateLimiter ℤ) 5 :=
  check_idempotent (init 2 10) [1, 2] 5 (by decide)

theorem purgeE_eq (now limit : α) (l : List α) :
    purgeE now limit l = Except.ok (purge now limit l) := by
  induction l with
  | nil => rfl
  | cons a rest ih =>
    by_cases hc : now - a > limit
    · simp [purgeE, headE, purge, hc, ih]
    · simp [purgeE, headE, purge, hc]

/-- C8: `check()` is total and has no error path: even with every deque
front access made explicitly fallible (`checkE`), the result is always
`Except.ok` of the pure `check` result — the purge loops read `q[0]` only
behind the non-emptiness guard, so no access can fail. -/
theorem checkE_total (s : RateLimiter α) (t : α) :
    checkE s t = Except.ok (check s t) := by
  unfold checkE
  rw [purgeE_eq, purgeE_eq]
  rfl

theorem check_snd_minute (s : RateLimiter α) (t : α) :
    ((check s t).2).requests_minute = purge t 60 s.requests_minute := by
  rw [check_snd]

theorem check_snd_day (s : RateLimiter α) (t : α) :
    ((check s t).2).requests_day = purge t 86400 s.requests_day := by
  rw [check_snd]

theorem acceptedRun_limits {ts : List α} {s s' : RateLimiter α}
    (h : acceptedRun ts s = some s') :
    s'.rpm_limit = s.rpm_limit ∧ s'.daily_limit = s.daily_limit := by
  induction ts generalizing s with
  | nil =>
    cases h
    exact ⟨rfl, rfl⟩
  | cons t rest ih =>
    rw [acceptedRun] at h
    by_cases hb : ((check s t).1).1
    · rw [if_pos hb] at h
      cases h
    · rw [if_neg hb] at h
      obtain ⟨h1, h2⟩ := ih h
      refine ⟨h1.trans ?_, h2.trans ?_⟩
      · show ((check s t).2).rpm_limit = s.rpm_limit
        rw [check_snd]
      · show ((check s t).2).daily_limit = s.daily_limit
        rw [check_snd]

theorem acceptedRun_suffix_minute {ts : List α} {s s' : RateLimiter α} {pre : List α}
    (h : acceptedRun ts s = some s') (hpre : pre <:+ s.requests_minute)
    (hfresh : ∀ u ∈ pre ++ ts, ∀ v ∈ ts, v - u ≤ 60) :
    pre ++ ts <:+ s'.requests_minute := by
  induction ts generalizing s pre with
  | nil =>
    cases h
    simpa using hpre
  | cons t rest ih =>
    rw [acceptedRun] at h
    by_cases hb : ((check s t).1).1
    · rw [if_pos hb] at h
      cases h
    · rw [if_neg hb] at h
      have hpre2 : pre <:+ ((check s t).2).requests_minute := by
        rw [check_snd_minute]
        refine suffix_purge_of_fresh hpre ?_
        intro x hx
        exact hfresh x (List.mem_append_left _ hx) t (List.mem_cons_self t rest)
      have hpre3 : pre ++ [t] <:+ (record_request ((check s t).2) t).requests_minute := by
        show pre ++ [t] <:+ ((check s t).2).requests_minute ++ [t]
        obtain ⟨q, hq⟩ := hpre2
        exact ⟨q, by rw [← List.append_assoc, ← hq]⟩
      have hfresh2 : ∀ u ∈ (pre ++ [t]) ++ rest, ∀ v ∈ rest, v - u ≤ 60 := by
        intro u hu v hv
        rcases List.mem_append.mp hu with hu1 | hu2
        · rcases List.mem_append.mp hu1 with hu3 | hu4
          · exact hfresh u (List.mem_append_left _ hu3) v (List.mem_cons_of_mem t hv)
          · have hut : u = t := by simpa using hu4
            subst hut
            exact hfresh u (List.mem_append_right _ (List.mem_cons_self u rest)) v
              (List.mem_cons_of_mem u hv)
        · exact hfresh u (List.mem_append_right _ (List.mem_cons_of_mem t hu2)) v
            (List.mem_cons_of_mem t hv)
      have hres := ih h hpre3 hfresh2
      simpa [List.append_assoc] using hres

theorem acceptedRun_suffix_day {ts : List α} {s s' : RateLimiter α} {pre : List α}
    (h : acceptedRun ts s = some s') (hpre : pre <:+ s.requests_day)
    (hfresh : ∀ u ∈ pre ++ ts, ∀ v ∈ ts, v - u ≤ 86400) :
    pre ++ ts <:+ s'.requests_day := by
  induction ts generalizing s pre with
  | nil =>
    cases h
    simpa using hpre
  | cons t rest ih =>
    rw [acceptedRun] at h
    by_cases hb : ((check s t).1).1
    · rw [if_pos hb] at h
      cases h
    · rw [if_neg hb] at h
      have hpre2 : pre <:+ ((check s t).2).requests_day := by
        rw [check_snd_day]
        refine suffix_purge_of_fresh hpre ?_
        intro x hx
        exact hfresh x (List.mem_append_left _ hx) t (List.mem_cons_self t rest)
      have hpre3 : pre ++ [t] <:+ (record_request ((check s t).2) t).requests_day := by
        show pre ++ [t] <:+ ((check s t).2).requests_day ++ [t]
        obtain ⟨q, hq⟩ := hpre2
        exact ⟨q, by rw [← List.append_assoc, ← hq]⟩
      have hfresh2 : ∀ u ∈ (pre ++ [t]) ++ rest, ∀ v ∈ rest, v - u ≤ 86400 := by
        intro u hu v hv
        rcases List.mem_append.mp hu with hu1 | hu2
        · rcases List.mem_append.mp hu1 with hu3 | hu4
          · exact hfresh u (List.mem_append_left _ hu3) v (List.mem_cons_of_mem t hv)
          · have hut : u = t := by simpa using hu4
            subst hut
            exact hfresh u (List.mem_append_right _ (List.mem_cons_self u rest)) v
              (List.mem_cons_of_mem u hv)
        · exact hfresh u (List.mem_append_right _ (List.mem_cons_of_mem t hu2)) v
            (List.mem_cons_of_mem t hv)
      have hres := ih h hpre3 hfresh2
      simpa [List.append_assoc] using hres

theorem purge_append_of_stale {now limit : α} {u w : List α}
    (h : ∀ x ∈ u, now - x > limit) :
    purge now limit (u ++ w) = purge now limit w := by
  induction u with
  | nil => rfl
  | cons a u' ih =>
    have ha : now - a > limit := h a (List.mem_cons_self a u')
    have h1 : purge now limit ((a :: u') ++ w) = purge now limit (u' ++ w) := by
      simp [purge, ha]
    rw [h1]
    exact ih fun x hx => h x (List.mem_cons_of_mem a hx)

theorem acceptedRun_minute_decomp {ts : List α} {s s' : RateLimiter α}
    (h : acceptedRun ts s = some s') :
    ∃ u w : List α, s'.requests_minute = u ++ w ∧
      u.Sublist s.requests_minute ∧ w.Sublist ts := by
  induction ts generalizing s with
  | nil =>
    cases h
    exact ⟨_, [], (List.append_nil _).symm, List.Sublist.refl _, List.Sublist.refl _⟩
  | cons t rest ih =>
    rw [acceptedRun] at h
    by_cases hb : ((check s t).1).1
    · rw [if_pos hb] at h
      cases h
    · rw [if_neg hb] at h
      obtain ⟨u1, w1, hdec, hu1, hw1⟩ := ih h
      have hrec : (record_request ((check s t).2) t).requests_minute
          = purge t 60 s.requests_minute ++ [t] := by
        show ((check s t).2).requests_minute ++ [t] = _
        rw [check_snd_minute]
      rw [hrec] at hu1
      obtain ⟨a, b, rfl, ha, hb2⟩ := List.sublist_append_iff.mp hu1
      refine ⟨a, b ++ w1, ?_, ?_, ?_⟩
      · rw [hdec, List.append_assoc]
      · exact ha.trans (purge_suffix t 60 _).sublist
      · have hbw : (b ++ w1).Sublist ([t] ++ rest) := hb2.append hw1
        simpa using hbw

/-- C2: with `rpm_limit = r`, after `r` accepted `check`/`record_request`
cycles all within one 60-second span, a further `check` in that span reports
limited with the per-minute message (first conjunct); once more than 60
seconds have elapsed since the earliest of those timestamps, `check` reports
not-limited again provided the purged day window is still under
`daily_limit` — for every limiter whose pre-existing minute entries predate
those timestamps, as a nondecreasing clock guarantees, prior entries either
age out during the span or are purged by the final check (second conjunct);
concretely, with `rpm_limit = 2` and
`daily_limit = 10`, three back-to-back cycles yield not-limited,
not-limited, then limited with the per-minute message (third conjunct). -/
theorem rpm_limit_behaviour :
    (∀ {α : Type} [LinearOrderedCommRing α] (s s' : RateLimiter α) (ts : List α) (t : α),
        s.rpm_limit = ts.length →
        (∀ u ∈ t :: ts, ∀ v ∈ t :: ts, v - u ≤ 60) →
        acceptedRun ts s = some s' →
        (check s' t).1 = (true, minuteLimitMessage)) ∧
    (∀ {α : Type} [LinearOrderedCommRing α] (s s' : RateLimiter α) (t1 : α)
        (ts : List α) (t : α),
        (∀ x ∈ s.requests_minute, x ≤ t1) →
        s.rpm_limit = (t1 :: ts).length →
        List.Chain' (· ≤ ·) (t1 :: ts) →
        (∀ u ∈ t1 :: ts, u ≤ t) →
        acceptedRun (t1 :: ts) s = some s' →
        t - t1 > 60 →
        (purge t 86400 s'.requests_day).length < s.daily_limit →
        (check s' t).1 = (false, "")) ∧
    ((check (init 2 10 : RateLimiter ℤ) 0).1 = (false, "") ∧
     (check (record_request ((check (init 2 10 : RateLimiter ℤ) 0).2) 0) 1).1
       = (false, "") ∧
     (check (record_request ((check (record_request
         ((check (init 2 10 : RateLimiter ℤ) 0).2) 0) 1).2) 1) 2).1
       = (true, minuteLimitMessage)) := by
  refine ⟨?_, ?_, by decide, by decide, by decide⟩
  · intro α _ s s' ts t hlen hspan hrun
    have hf : ∀ u ∈ ([] : List α) ++ ts, ∀ v ∈ ts, v - u ≤ 60 := by
      intro u hu v hv
      rw [List.nil_append] at hu
      exact hspan u (List.mem_cons_of_mem t hu) v (List.mem_cons_of_mem t hv)
    have hsuf : ts <:+ s'.requests_minute := by
      simpa using acceptedRun_suffix_minute hrun List.nil_suffix hf
    have hfresh : ∀ x ∈ ts, t - x ≤ 60 := fun x hx =>
      hspan x (List.mem_cons_of_mem t hx) t (List.mem_cons_self t ts)
    have hsuf2 : ts <:+ purge t 60 s'.requests_minute :=
      suffix_purge_of_fresh hsuf hfresh
    have hlen2 : (purge t 60 s'.requests_minute).length ≥ s'.rpm_limit := by
      have hl := hsuf2.sublist.length_le
      have hrpm := (acceptedRun_limits hrun).1
      omega
    rw [check_fst, if_pos hlen2]
  · intro α _ s s' t1 ts t hprior hlen hchain hle hrun hgt hday
    obtain ⟨u, w, hdec, hu, hw⟩ := acceptedRun_minute_decomp hrun
    have hstale : ∀ x ∈ u, t - x > 60 := by
      intro x hx
      have hx1 : x ≤ t1 := hprior x (hu.subset hx)
      exact lt_of_lt_of_le hgt (sub_le_sub_left hx1 t)
    have hpair : (t1 :: ts).Pairwise (· ≤ ·) := List.chain'_iff_pairwise.mp hchain
    have hsorted : w.Pairwise (· ≤ ·) := hpair.sublist hw
    have hlenle : (purge t 60 s'.requests_minute).length ≤ ts.length := by
      rw [hdec, purge_append_of_stale hstale, purge_eq_filter_of_sorted hsorted]
      have h1 : (w.filter fun x => decide (t - x ≤ 60)).Sublist
          ((t1 :: ts).filter fun x => decide (t - x ≤ 60)) := hw.filter _
      have h2 : ((t1 :: ts).filter fun x => decide (t - x ≤ 60))
          = ts.filter fun x => decide (t - x ≤ 60) := by
        rw [List.filter_cons, if_neg]
        simpa using not_le.mpr hgt
      have h3 := h1.length_le
      rw [h2] at h3
      exact h3.trans (List.length_filter_le _ _)
    have hnotrpm : ¬ ((purge t 60 s'.requests_minute).length ≥ s'.rpm_limit) := by
      have hrpm := (acceptedRun_limits hrun).1
      rw [hrpm, hlen]
      simp only [List.length_cons]
      omega
    have hnotday : ¬ ((purge t 86400 s'.requests_day).length ≥ s'.daily_limit) := by
      have hdl := (acceptedRun_limits hrun).2
      rw [hdl]
      omega
    rw [check_fst, if_neg hnotrpm, if_neg hnotday]

theorem rpm_limit_behaviour_witness :
    (check (⟨1, 10, [0], [0]⟩ : RateLimiter ℤ) 0).1 = (true, minuteLimitMessage) ∧
    (check (⟨2, 10, [0, 20], [-50, 0, 20]⟩ : RateLimiter ℤ) 70).1 = (false, "") :=
  ⟨rpm_limit_behaviour.1 (init 1 10) ⟨1, 10, [0], [0]⟩ [0] 0 (by decide) (by decide)
    (by decide),
   rpm_limit_behaviour.2.1 ⟨2, 10, [-50], [-50]⟩ ⟨2, 10, [0, 20], [-50, 0, 20]⟩ 0 [20]
    70 (by decide) (by decide) (by simp [List.chain'_cons]) (by decide) (by decide)
    (by decide) (by decide)⟩

/-- C3: with `daily_limit = d`, after `d` accepted `check`/`record_request`
cycles all within one 24-hour span, the `check` preceding the `(d+1)`-th
request in that span reports limited, whatever the per-minute window holds. -/
theorem daily_limit_enforced {α : Type} [LinearOrderedCommRing α]
    (s s' : RateLimiter α) (ts : List α) (t : α)
    (hlen : s.daily_limit = ts.length)
    (hspan : ∀ u ∈ t :: ts, ∀ v ∈ t :: ts, v - u ≤ 86400)
    (hrun : acceptedRun ts s = some s') :
    ((check s' t).1).1 = true := by
  have hf : ∀ u ∈ ([] : List α) ++ ts, ∀ v ∈ ts, v - u ≤ 86400 := by
    intro u hu v hv
    rw [List.nil_append] at hu
    exact hspan u (List.mem_cons_of_mem t hu) v (List.mem_cons_of_mem t hv)
  have hsuf : ts <:+ s'.requests_day := by
    simpa using acceptedRun_suffix_day hrun List.nil_suffix hf
  have hfresh : ∀ x ∈ ts, t - x ≤ 86400 := fun x hx =>
    hspan x (List.mem_cons_of_mem t hx) t (List.mem_cons_self t ts)
  have hsuf2 : ts <:+ purge t 86400 s'.requests_day :=
    suffix_purge_of_fresh hsuf hfresh
  have hlen2 : (purge t 86400 s'.requests_day).length ≥ s'.daily_limit := by
    have hl := hsuf2.sublist.length_le
    have hdl := (acceptedRun_limits hrun).2
    omega
  rw [check_fst]
  by_cases h1 : (purge t 60 s'.requests_minute).length ≥ s'.rpm_limit
  · rw [if_pos h1]
  · rw [if_neg h1, if_pos hlen2]

theorem daily_limit_enforced_witness :
    ((check (⟨5, 1, [0], [0]⟩ : RateLimiter ℤ) 1).1).1 = true :=
  daily_limit_enforced (init 5 1) ⟨5, 1, [0], [0]⟩ [0] 1 (by decide) (by decide)
    (by decide)

/-- C1: `check()` first removes every stale timestamp from the front of each
window (the minute window at 60 seconds, the day window at 86400 seconds) and
then returns, in this precedence order: `(true, per-minute message)` when the
minute window has reached `rpm_limit`, else `(true, per-day message)` when the
day window has reached `daily_limit`, else `(false, "")` — exactly the
behaviour described by the specification (`checkSpec`). -/
theorem check_eq_checkSpec (s : RateLimiter α) (now : α) :
    check s now = checkSpec s now := by
  unfold check checkSpec
  rw [purge_eq_dropWhile, purge_eq_dropWhile]

end RateLimiter

variable {α : Type} [LinearOrderedCommRing α]

theorem applyOp_pairwise_le {t0 : α} {s : RateLimiter α} (op : LimiterOp α)
    (hle : t0 ≤ op.time)
    (hm : s.requests_minute.Pairwise (· ≤ ·)) (hd : s.requests_day.Pairwise (· ≤ ·))
    (hmb : ∀ x ∈ s.requests_minute, x ≤ t0) (hdb : ∀ x ∈ s.requests_day, x ≤ t0) :
    (applyOp s op).requests_minute.Pairwise (· ≤ ·) ∧
      (applyOp s op).requests_day.Pairwise (· ≤ ·) ∧
      (∀ x ∈ (applyOp s op).requests_minute, x ≤ op.time) ∧
      (∀ x ∈ (applyOp s op).requests_day, x ≤ op.time) := by
  cases op with
  | checkOp t =>
    have hle' : t0 ≤ t := by simpa [LimiterOp.time] using hle
    simp only [applyOp, LimiterOp.time, RateLimiter.check_snd_minute,
      RateLimiter.check_snd_day]
    refine ⟨List.Pairwise.sublist (RateLimiter.purge_suffix t 60 _).sublist hm,
      List.Pairwise.sublist (RateLimiter.purge_suffix t 86400 _).sublist hd, ?_, ?_⟩
    · intro x hx
      exact (hmb x (RateLimiter.mem_of_mem_purge hx)).trans hle'
    · intro x hx
      exact (hdb x (RateLimiter.mem_of_mem_purge hx)).trans hle'
  | recordOp t =>
    have hle' : t0 ≤ t := by simpa [LimiterOp.time] using hle
    have happ : ∀ (l : List α), l.Pairwise (· ≤ ·) → (∀ x ∈ l, x ≤ t0) →
        (l ++ [t]).Pairwise (· ≤ ·) ∧ ∀ x ∈ l ++ [t], x ≤ t := by
      intro l hp hb
      constructor
      · refine List.pairwise_append.mpr ⟨hp, List.pairwise_singleton _ _, ?_⟩
        intro a ha b hb2
        have hbt : b = t := by simpa using hb2
        subst hbt
        exact (hb a ha).trans hle'
      · intro x hx
        rcases List.mem_append.mp hx with hx1 | hx2
        · exact (hb x hx1).trans hle'
        · have hxt : x = t := by simpa using hx2
          simp [hxt]
    obtain ⟨h1, h2⟩ := happ s.requests_minute hm hmb
    obtain ⟨h3, h4⟩ := happ s.requests_day hd hdb
    simp only [applyOp, LimiterOp.time, RateLimiter.record_request]
    exact ⟨h1, h3, h2, h4⟩

theorem runOps_pairwise_aux :
    ∀ (ops : List (LimiterOp α)) (s : RateLimiter α) (t0 : α),
      List.Chain' (· ≤ ·) (t0 :: ops.map LimiterOp.time) →
      s.requests_minute.Pairwise (· ≤ ·) → s.requests_day.Pairwise (· ≤ ·) →
      (∀ x ∈ s.requests_minute, x ≤ t0) → (∀ x ∈ s.requests_day, x ≤ t0) →
      (runOps ops s).requests_minute.Pairwise (· ≤ ·) ∧
        (runOps ops s).requests_day.Pairwise (· ≤ ·) := by
  intro ops
  induction ops with
  | nil => exact fun s t0 _ hm hd _ _ => ⟨hm, hd⟩
  | cons op rest ih =>
    intro s t0 hchain hm hd hmb hdb
    rw [List.map_cons, List.chain'_cons] at hchain
    obtain ⟨hle, hchain'⟩ := hchain
    obtain ⟨h1, h2, h3, h4⟩ := applyOp_pairwise_le op hle hm hd hmb hdb
    exact ih (applyOp s op) op.time hchain' h1 h2 h3 h4

/-- C7: with a nondecreasing clock, every reachable limiter state has both
windows sorted ascending by timestamp (first conjunct), and
`record_request` never removes anything — it is exactly the two appends of
the current time, stale entries being dropped only inside `check`
(second conjunct). -/
theorem windows_sorted_invariant :
    (∀ {α : Type} [LinearOrderedCommRing α] (rpm daily : ℕ) (ops : List (LimiterOp α)),
        List.Chain' (· ≤ ·) (ops.map LimiterOp.time) →
        (runOps ops (RateLimiter.init rpm daily)).requests_minute.Pairwise (· ≤ ·) ∧
        (runOps ops (RateLimiter.init rpm daily)).requests_day.Pairwise (· ≤ ·)) ∧
    (∀ {α : Type} [LinearOrderedCommRing α] (s : RateLimiter α) (t : α),
        RateLimiter.record_request s t
          = { s with requests_minute := s.requests_minute ++ [t],
                     requests_day := s.requests_day ++ [t] }) := by
  constructor
  · intro α _ rpm daily ops hchain
    cases ops with
    | nil => exact ⟨List.Pairwise.nil, List.Pairwise.nil⟩
    | cons op rest =>
      refine runOps_pairwise_aux (op :: rest) (RateLimiter.init rpm daily) op.time ?_
        List.Pairwise.nil List.Pairwise.nil (by intro x hx; cases hx) (by intro x hx; cases hx)
      rw [List.map_cons, List.chain'_cons]
      exact ⟨le_refl _, by rwa [List.map_cons] at hchain⟩
  · intro α _ s t
    rfl

theorem windows_sorted_invariant_witness :
    (runOps [LimiterOp.recordOp (1 : ℤ), LimiterOp.checkOp 2]
        (RateLimiter.init 10 499)).requests_minute.Pairwise (· ≤ ·) ∧
    (runOps [LimiterOp.recordOp (1 : ℤ), LimiterOp.checkOp 2]
        (RateLimiter.init 10 499)).requests_day.Pairwise (· ≤ ·) :=
  windows_sorted_invariant.1 10 499 [LimiterOp.recordOp 1, LimiterOp.checkOp 2]
    (by simp [List.chain'_cons, LimiterOp.time])

theorem applyOp_suffix {s : RateLimiter α} (op : LimiterOp α)
    (h : s.requests_minute <:+ s.requests_day) :
    (applyOp s op).requests_minute <:+ (applyOp s op).requests_day := by
  cases op with
  | checkOp t =>
    show (RateLimiter.check s t).2.requests_minute <:+
      (RateLimiter.check s t).2.requests_day
    rw [RateLimiter.check_snd_minute, RateLimiter.check_snd_day]
    exact RateLimiter.purge_suffix_mono (by norm_num) h
  | recordOp t =>
    show s.requests_minute ++ [t] <:+ s.requests_day ++ [t]
    obtain ⟨q, hq⟩ := h
    exact ⟨q, by rw [← List.append_assoc, ← hq]⟩

theorem runOps_suffix :
    ∀ (ops : List (LimiterOp α)) (s : RateLimiter α),
      s.requests_minute <:+ s.requests_day →
      (runOps ops s).requests_minute <:+ (runOps ops s).requests_day := by
  intro ops
  induction ops with
  | nil => exact fun s h => h
  | cons op rest ih =>
    intro s h
    show (rest.foldl applyOp (applyOp s op)).requests_minute <:+ _
    exact ih (applyOp s op) (applyOp_suffix op h)

/-- C9: `record_request` reads the clock once and appends that same
timestamp to both windows (second conjunct); consequently, along any trace
of `check` / `record_request` operations with a nondecreasing clock from a
fresh limiter, the minute window is a suffix of the day window and never
exceeds it in length (first conjunct). -/
theorem minute_suffix_day_invariant :
    (∀ {α : Type} [LinearOrderedCommRing α] (rpm daily : ℕ) (ops : List (LimiterOp α)),
        List.Chain' (· ≤ ·) (ops.map LimiterOp.time) →
        (runOps ops (RateLimiter.init rpm daily)).requests_minute <:+
          (runOps ops (RateLimiter.init rpm daily)).requests_day ∧
        (runOps ops (RateLimiter.init rpm daily)).requests_minute.length ≤
          (runOps ops (RateLimiter.init rpm daily)).requests_day.length) ∧
    (∀ {α : Type} [LinearOrderedCommRing α] (s : RateLimiter α) (t : α),
        (RateLimiter.record_request s t).requests_minute = s.requests_minute ++ [t] ∧
        (RateLimiter.record_request s t).requests_day = s.requests_day ++ [t]) := by
  constructor
  · intro α _ rpm daily ops _
    have h := runOps_suffix ops (RateLimiter.init rpm daily) (List.suffix_refl _)
    exact ⟨h, h.sublist.length_le⟩
  · exact fun s t => ⟨rfl, rfl⟩

theorem minute_suffix_day_invariant_witness :
    (runOps [LimiterOp.recordOp (3 : ℤ), LimiterOp.recordOp 4, LimiterOp.checkOp 100]
        (RateLimiter.init 10 499)).requests_minute <:+
      (runOps [LimiterOp.recordOp (3 : ℤ), LimiterOp.recordOp 4, LimiterOp.checkOp 100]
        (RateLimiter.init 10 499)).requests_day ∧
    (runOps [LimiterOp.recordOp (3 : ℤ), LimiterOp.recordOp 4, LimiterOp.checkOp 100]
        (RateLimiter.init 10 499)).requests_minute.length ≤
      (runOps [LimiterOp.recordOp (3 : ℤ), LimiterOp.recordOp 4, LimiterOp.checkOp 100]
        (RateLimiter.init 10 499)).requests_day.length :=
  minute_suffix_day_invariant.1 10 499
    [LimiterOp.recordOp 3, LimiterOp.recordOp 4, LimiterOp.checkOp 100]
    (by simp [List.chain'_cons, LimiterOp.time])

theorem takeWhile_dropWhile_append {β : Type} {p : β → Bool} {d1 : List β} (x : β)
    (rest : List β) (hall : ∀ c ∈ d1, p c) (hx : p x = false) :
    (d1 ++ x :: rest).takeWhile p = d1 ∧ (d1 ++ x :: rest).dropWhile p = x :: rest := by
  induction d1 with
  | nil => simp [List.takeWhile_cons, List.dropWhile_cons, hx]
  | cons a d ih =>
    have ha : p a = true := hall a (List.mem_cons_self a d)
    have ih2 := ih fun c hc => hall c (List.mem_cons_of_mem a hc)
    simp [List.takeWhile_cons, List.dropWhile_cons, ha, ih2]

theorem takeWhile_dropWhile_of_all {β : Type} {p : β → Bool} {l : List β}
    (hall : ∀ c ∈ l, p c) : l.takeWhile p = l ∧ l.dropWhile p = [] := by
  induction l with
  | nil => simp
  | cons a d ih =>
    have ha : p a = true := hall a (List.mem_cons_self a d)
    have ih2 := ih fun c hc => hall c (List.mem_cons_of_mem a hc)
    simp [List.takeWhile_cons, List.dropWhile_cons, ha, ih2]

theorem parseDiceChars_eq_some {cs : List Char} {n m : ℕ} :
    parseDiceChars cs = some (n, m) ↔
      ∃ d1 d2 : List Char, cs = d1 ++ 'd' :: d2 ∧ d1 ≠ [] ∧ d2 ≠ [] ∧
        (∀ c ∈ d1, c.isDigit) ∧ (∀ c ∈ d2, c.isDigit) ∧
        n = digitsToNat d1 ∧ m = digitsToNat d2 := by
  constructor
  · intro h
    simp only [parseDiceChars, List.span_eq_take_drop] at h
    by_cases h1 : cs.takeWhile Char.isDigit = []
    · rw [if_pos h1] at h
      exact absurd h (by simp)
    · rw [if_neg h1] at h
      cases hdrop : cs.dropWhile Char.isDigit with
      | nil =>
        rw [hdrop] at h
        exact absurd h (by simp)
      | cons sep afterD =>
        rw [hdrop] at h
        have h' : (if sep = 'd' then
            (if afterD.takeWhile Char.isDigit ≠ [] ∧ afterD.dropWhile Char.isDigit = []
             then
              some (digitsToNat (cs.takeWhile Char.isDigit),
                digitsToNat (afterD.takeWhile Char.isDigit))
             else none)
          else none) = some (n, m) := h
        clear h
        by_cases hsep : sep = 'd'
        · rw [if_pos hsep] at h'
          by_cases h2 : afterD.takeWhile Char.isDigit ≠ [] ∧
              afterD.dropWhile Char.isDigit = []
          · rw [if_pos h2] at h'
            have hpair := Option.some.inj h'
            have hn : digitsToNat (cs.takeWhile Char.isDigit) = n :=
              congrArg Prod.fst hpair
            have hm : digitsToNat (afterD.takeWhile Char.isDigit) = m :=
              congrArg Prod.snd hpair
            have hafter : afterD.takeWhile Char.isDigit = afterD := by
              have hsplit := List.takeWhile_append_dropWhile (p := Char.isDigit)
                (l := afterD)
              rw [h2.2, List.append_nil] at hsplit
              exact hsplit
            subst hsep
            refine ⟨cs.takeWhile Char.isDigit, afterD, ?_, h1, ?_, ?_, ?_, hn.symm, ?_⟩
            · rw [← hdrop, List.takeWhile_append_dropWhile]
            · intro hcontra
              subst hcontra
              exact h2.1 rfl
            · exact fun c hc => List.mem_takeWhile_imp hc
            · intro c hc
              rw [← hafter] at hc
              exact List.mem_takeWhile_imp hc
            · rw [← hafter, hm]
          · rw [if_neg h2] at h'
            exact absurd h' (by simp)
        · rw [if_neg hsep] at h'
          exact absurd h' (by simp)
  · rintro ⟨d1, d2, rfl, hne1, hne2, hdig1, hdig2, rfl, rfl⟩
    have hd : Char.isDigit 'd' = false := by decide
    obtain ⟨htake, hdrop⟩ := takeWhile_dropWhile_append 'd' d2 hdig1 hd
    obtain ⟨htake2, hdrop2⟩ := takeWhile_dropWhile_of_all hdig2
    simp only [parseDiceChars, List.span_eq_take_drop, htake, hdrop, htake2, hdrop2]
    rw [if_neg hne1]
    simp [hne2]

theorem diceroll_rejected_iff (s : RateLimiter α) (t : α) (dice : String) :
    (∃ msg, (diceroll s t dice).1 = DicerollOutcome.rejected msg) ↔
      ¬ ∃ n m : ℕ, dicerollParse dice = some (n, m) ∧
          1 ≤ n ∧ n ≤ 100 ∧ 2 ≤ m ∧ m ≤ 1000 := by
  cases hp : dicerollParse dice with
  | none =>
    constructor
    · rintro - ⟨n, m, hsome, -⟩
      exact Option.noConfusion hsome
    · intro _
      exact ⟨formatErrorMessage, by simp [diceroll, hp]⟩
  | some nm =>
    obtain ⟨n, m⟩ := nm
    by_cases hb : 1 ≤ n ∧ n ≤ 100 ∧ 2 ≤ m ∧ m ≤ 1000
    · constructor
      · rintro ⟨msg, hmsg⟩
        by_cases hc : ((RateLimiter.check s t).1).1
        · simp [diceroll, hp, hb, hc] at hmsg
        · simp [diceroll, hp, hb, hc] at hmsg
      · intro hno
        exact absurd ⟨n, m, rfl, hb⟩ hno
    · constructor
      · rintro - ⟨n', m', hsome, hb'⟩
        have hpair := Option.some.inj hsome
        have hn : n = n' := congrArg Prod.fst hpair
        have hm : m = m' := congrArg Prod.snd hpair
        subst hn
        subst hm
        exact hb hb'
      · intro _
        exact ⟨rangeErrorMessage, by simp [diceroll, hp, hb]⟩

theorem diceroll_rejected_state (s : RateLimiter α) (t : α) (dice msg : String)
    (h : (diceroll s t dice).1 = DicerollOutcome.rejected msg) :
    (diceroll s t dice).2 = s := by
  cases hp : dicerollParse dice with
  | none => simp [diceroll, hp]
  | some nm =>
    obtain ⟨n, m⟩ := nm
    by_cases hb : 1 ≤ n ∧ n ≤ 100 ∧ 2 ≤ m ∧ m ≤ 1000
    · by_cases hc : ((RateLimiter.check s t).1).1
      · simp [diceroll, hp, hb, hc] at h
      · simp [diceroll, hp, hb, hc] at h
    · simp [diceroll, hp, hb]

theorem diceValid_shape_iff {dice : String} :
    (∃ n m : ℕ, dicerollParse dice = some (n, m) ∧
        1 ≤ n ∧ n ≤ 100 ∧ 2 ≤ m ∧ m ≤ 1000)
      ↔ ∃ d1 d2 : List Char, dice.toList.map Char.toLower = d1 ++ 'd' :: d2 ∧
          d1 ≠ [] ∧ d2 ≠ [] ∧ (∀ c ∈ d1, c.isDigit) ∧ (∀ c ∈ d2, c.isDigit) ∧
          1 ≤ digitsToNat d1 ∧ digitsToNat d1 ≤ 100 ∧
          2 ≤ digitsToNat d2 ∧ digitsToNat d2 ≤ 1000 := by
  constructor
  · rintro ⟨n, m, hsome, hb1, hb2, hb3, hb4⟩
    rw [dicerollParse] at hsome
    obtain ⟨d1, d2, hshape, hne1, hne2, hdig1, hdig2, rfl, rfl⟩ :=
      parseDiceChars_eq_some.mp hsome
    exact ⟨d1, d2, hshape, hne1, hne2, hdig1, hdig2, hb1, hb2, hb3, hb4⟩
  · rintro ⟨d1, d2, hshape, hne1, hne2, hdig1, hdig2, hb1, hb2, hb3, hb4⟩
    refine ⟨digitsToNat d1, digitsToNat d2, ?_, hb1, hb2, hb3, hb4⟩
    rw [dicerollParse]
    exact parseDiceChars_eq_some.mpr ⟨d1, d2, hshape, hne1, hne2, hdig1, hdig2, rfl, rfl⟩

/-- C5: dice-notation validation in `/diceroll`: the input is rejected with a
validation message exactly when its lowercased character list does not have
the form `<digits>d<digits>` with dice count in [1,100] and side count in
[2,1000]; every rejection happens before any limiter interaction, so the
limiter state is returned untouched (first conjunct).  Concretely (second
conjunct), "2d6" and "1d20" pass validation for every limiter state, while
"0d6", "101d6", "2d1" and "2d1001" are rejected with the range message and
"abc" and "2xd6" with the format message. -/
theorem diceroll_validation :
    (∀ {α : Type} [LinearOrderedCommRing α] (s : RateLimiter α) (t : α)
        (dice : String),
        ((∃ msg, (diceroll s t dice).1 = DicerollOutcome.rejected msg) ↔
          ¬ ∃ d1 d2 : List Char, dice.toList.map Char.toLower = d1 ++ 'd' :: d2 ∧
              d1 ≠ [] ∧ d2 ≠ [] ∧ (∀ c ∈ d1, c.isDigit) ∧ (∀ c ∈ d2, c.isDigit) ∧
              1 ≤ digitsToNat d1 ∧ digitsToNat d1 ≤ 100 ∧
              2 ≤ digitsToNat d2 ∧ digitsToNat d2 ≤ 1000) ∧
        (∀ msg, (diceroll s t dice).1 = DicerollOutcome.rejected msg →
            (diceroll s t dice).2 = s)) ∧
    (∀ {α : Type} [LinearOrderedCommRing α] (s : RateLimiter α) (t : α),
        (∀ msg, (diceroll s t "2d6").1 ≠ DicerollOutcome.rejected msg) ∧
        (∀ msg, (diceroll s t "1d20").1 ≠ DicerollOutcome.rejected msg) ∧
        (diceroll s t "0d6").1 = DicerollOutcome.rejected rangeErrorMessage ∧
        (diceroll s t "101d6").1 = DicerollOutcome.rejected rangeErrorMessage ∧
        (diceroll s t "2d1").1 = DicerollOutcome.rejected rangeErrorMessage ∧
        (diceroll s t "2d1001").1 = DicerollOutcome.rejected rangeErrorMessage ∧
        (diceroll s t "abc").1 = DicerollOutcome.rejected formatErrorMessage ∧
        (diceroll s t "2xd6").1 = DicerollOutcome.rejected formatErrorMessage) := by
  constructor
  · intro α _ s t dice
    refine ⟨?_, fun msg h => diceroll_rejected_state s t dice msg h⟩
    rw [diceroll_rejected_iff]
    exact not_congr diceValid_shape_iff
  · intro α _ s t
    have h2d6 : dicerollParse "2d6" = some (2, 6) := by decide
    have h1d20 : dicerollParse "1d20" = some (1, 20) := by decide
    have h0d6 : dicerollParse "0d6" = some (0, 6) := by decide
    have h101d6 : dicerollParse "101d6" = some (101, 6) := by decide
    have h2d1 : dicerollParse "2d1" = some (2, 1) := by decide
    have h2d1001 : dicerollParse "2d1001" = some (2, 1001) := by decide
    have habc : dicerollParse "abc" = none := by decide
    have h2xd6 : dicerollParse "2xd6" = none := by decide
    refine ⟨?_, ?_, ?_, ?_, ?_, ?_, ?_, ?_⟩
    · intro msg h
      by_cases hc : ((RateLimiter.check s t).1).1
      · simp [diceroll, h2d6, hc] at h
      · simp [diceroll, h2d6, hc] at h
    · intro msg h
      by_cases hc : ((RateLimiter.check s t).1).1
      · simp [diceroll, h1d20, hc] at h
      · simp [diceroll, h1d20, hc] at h
    · simp [diceroll, h0d6]
    · simp [diceroll, h101d6]
    · simp [diceroll, h2d1]
    · simp [diceroll, h2d1001]
    · simp [diceroll, habc]
    · simp [diceroll, h2xd6]

theorem diceroll_validation_witness :
    (diceroll (RateLimiter.init 10 499 : RateLimiter ℤ) 0 "abc").2
      = RateLimiter.init 10 499 :=
  (diceroll_validation.1 (RateLimiter.init 10 499) 0 "abc").2 formatErrorMessage
    (by decide)

/-- C4 (counterexample): the claim that every failure of the generation call
maps to one fixed apology string fails for transport errors — `ask_gemini`
interpolates the text of the exception itself into the f-string, so two different
errors produce two different replies. -/
theorem ask_gemini_error_reply_not_fixed :
    ask_gemini (Except.error "ECONNRESET") ≠ ask_gemini (Except.error "Timeout") := by
  decide

/-- C4 (amended): every failure of the generation call is answered with a
non-empty Vietnamese apology instead of propagating the error: a raised
transport error yields the fixed apology text followed by the message of
that very error (so the full reply varies with the error), and a response with no
candidates yields the fixed blocked-content message verbatim — never an
empty reply. -/
theorem ask_gemini_failure_apology :
    (∀ e : String, ask_gemini (Except.error e) = apologyIntro ++ e ∧
        ask_gemini (Except.error e) ≠ "") ∧
    (∀ r : GeminiResponse, r.candidates = [] →
        ask_gemini (Except.ok r) = blockedMessage) ∧
    blockedMessage ≠ "" := by
  refine ⟨?_, ?_, by decide⟩
  · intro e
    have heq : ask_gemini (Except.error e) = apologyIntro ++ e := rfl
    refine ⟨heq, ?_⟩
    rw [heq]
    intro hcontra
    have hlen := congrArg String.length hcontra
    rw [String.length_append] at hlen
    have hintro : 0 < apologyIntro.length := by decide
    have hnil : ("" : String).length = 0 := rfl
    omega
  · intro r hr
    show (if r.candidates.isEmpty then blockedMessage else r.text) = blockedMessage
    rw [hr]
    rfl

theorem ask_gemini_failure_apology_witness :
    ask_gemini (Except.error "boom") = apologyIntro ++ "boom" ∧
    ask_gemini (Except.ok ⟨[], ""⟩) = blockedMessage :=
  ⟨(ask_gemini_failure_apology.1 "boom").1,
   ask_gemini_failure_apology.2.1 ⟨[], ""⟩ rfl⟩

theorem char_toNat_ofNat {n : ℕ} (h : n < 55296) : (Char.ofNat n).toNat = n := by
  unfold Char.ofNat
  rw [dif_pos (Or.inl h : Nat.isValidChar n)]
  rfl

theorem toLower_toUpper (c : Char) : (Char.toUpper c).toLower = Char.toLower c := by
  unfold Char.toUpper Char.toLower
  by_cases h : c.toNat ≥ 97 ∧ c.toNat ≤ 122
  · rw [if_pos h]
    have h1 : (Char.ofNat (c.toNat - 32)).toNat = c.toNat - 32 :=
      char_toNat_ofNat (by omega)
    rw [h1, if_pos (by omega), if_neg (by omega)]
    have h2 : c.toNat - 32 + 32 = c.toNat := by omega
    rw [h2, Char.ofNat_toNat]
  · rw [if_neg h]

theorem map_toLower_toUpper (cs : List Char) :
    (cs.map Char.toUpper).map Char.toLower = cs.map Char.toLower := by
  rw [List.map_map]
  exact List.map_congr_left fun a _ => toLower_toUpper a

/-- C10: `diceroll` lowercases its input before the pattern match, so the
separator is matched case-insensitively: for every accepted notation, the
string made of the uppercased characters is accepted and parses to the same
dice count and side count — concretely "2D6" parses exactly like "2d6". -/
theorem diceroll_case_insensitive :
    (∀ (dice dice' : String) (n m : ℕ),
        dice'.toList = dice.toList.map Char.toUpper →
        dicerollParse dice = some (n, m) → dicerollParse dice' = some (n, m)) ∧
    dicerollParse "2D6" = some (2, 6) ∧ dicerollParse "2D6" = dicerollParse "2d6" := by
  refine ⟨?_, by decide, by decide⟩
  intro dice dice' n m hlist hp
  rw [dicerollParse] at hp ⊢
  rw [hlist, map_toLower_toUpper]
  exact hp

theorem diceroll_case_insensitive_witness :
    dicerollParse "1D20" = some (1, 20) :=
  diceroll_case_insensitive.1 "1d20" "1D20" 1 20 (by decide) (by decide)

end Determination
